import Mathlib

/-!
# Verification of the RLM agent runtime (ax-ralph-rlm)

A shallow embedding, in Lean 4, of the parts of the repository that the
specification's claims are about:

* `src/lib/rlm_agent.ts` — the RLM agent: `singleLlmQuery` (budget-tracked
  sub-queries), `batchedLlmQuery` (bounded worker pool), `executeCode`
  (timeout restart/retry), `rlmAgentForward` (step loop and fallback
  extraction).
* `src/lib/rlm_runtime.ts` — host-side sandbox session management:
  `createSandboxSession`, `execute` (reserved-name guard, "use strict"
  guard, timeout), `formatValue`.
* The worker script (Deno Worker) — evaluation of submitted code against a
  persistent `globalThis` scope.  The execute handler dispatches on the code
  text: code matching `/\bawait\b/` is wrapped in an `AsyncFunction` (its
  `var` declarations are function-scoped and discarded; the result is the
  auto-returned last expression); all other code runs through sloppy-mode
  indirect `eval`, where `var` persists on `globalThis`.  Submitted code is
  modelled by a straight-line statement language (`var` declarations,
  assignments, expression statements) which is the fragment the claims
  exercise; the host-side reserved-name regex and the `await`-word dispatch
  are embedded as character-level matchers on the rendered code string.
* `src/lib/rlm_prompt.ts` — `truncate`.
* `src/lib/env.ts` — `getEnvInt`, `resolveWorkerBudgets`.
* `src/lib/loop_helpers.ts` — `classifyWorkerError`.

Machine integers do not overflow in any of the modelled code paths
(counters and lengths are small), so numbers are embedded as `Nat`/`Int`.
JavaScript strings are embedded as Lean `String`s; `slice`/`length` count
UTF-16 units in the source, characters here, which agree on the material
involved.
-/

/-! ## Truncation (`truncate` in rlm_prompt.ts)

```ts
export function truncate(s: string, maxChars: number): string {
  if (s.length <= maxChars) return s;
  return `${s.slice(0, maxChars)}\n...[truncated ${s.length - maxChars} chars]`;
}
```
-/

def truncate (s : String) (maxChars : Nat) : String :=
  if s.length ≤ maxChars then s
  else
    String.mk (s.data.take maxChars) ++ "\n...[truncated " ++
      toString (s.length - maxChars) ++ " chars]"

/-! ## Sub-query dispatcher (`singleLlmQuery` in rlm_agent.ts)

The closure state is the counter `llmCallCount`; the model transport
`client.chat` is abstracted by a function `chat` from the user-message
content to the assistant reply content (`completion.content ?? ""`).
`invoked` and `sent` record, for each call, whether the model was actually
invoked and with which user content (instrumentation of the observable
interaction, not part of the source's return value).
-/

structure SubQueryResult where
  invoked : Bool
  sent : Option String
  result : String
  count : Nat
deriving DecidableEq, Repr

def subQueryBudgetMsg (maxLlmCalls : Nat) : String :=
  "[ERROR] Sub-query budget exhausted (" ++ toString maxLlmCalls ++ "/" ++
    toString maxLlmCalls ++
    "). Use the data you have already accumulated to produce your final answer."

def warnSuffix (count maxLlmCalls : Nat) : String :=
  "\n[WARNING] " ++ toString count ++ "/" ++ toString maxLlmCalls ++
    " sub-queries used. Plan to wrap up soon."

/-- One `singleLlmQuery` call.  `warnThreshold` is passed as a parameter; the
source computes it once per invocation as `Math.floor(maxLlmCalls * 0.8)`
(for the concrete budgets used below, e.g. `maxLlmCalls = 10`, the
floating-point computation yields exactly `8`).  A JS quirk kept faithful:
an explicit empty-string context is falsy, so it is treated as absent. -/
def singleLlmQuery (maxLlmCalls warnThreshold maxRuntimeChars : Nat)
    (chat : String → String) (query : String) (context : Option String)
    (count0 : Nat) : SubQueryResult :=
  let count := count0 + 1
  if maxLlmCalls < count then
    { invoked := false, sent := none, result := subQueryBudgetMsg maxLlmCalls,
      count := count }
  else
    let truncatedCtx : Option String :=
      match context with
      | none => none
      | some c => if c = "" then none else some (truncate c maxRuntimeChars)
    let userContent :=
      match truncatedCtx with
      | some c => "Context:\n" ++ c ++ "\n\nQuery: " ++ query
      | none => query
    let answer := chat userContent
    if count = warnThreshold then
      { invoked := true, sent := some userContent,
        result := answer ++ warnSuffix count maxLlmCalls, count := count }
    else
      { invoked := true, sent := some userContent, result := answer,
        count := count }

/-- A sequence of `singleLlmQuery` calls within one invocation, threading the
shared `llmCallCount` through. -/
def runSingleQueries (maxLlmCalls warnThreshold maxRuntimeChars : Nat)
    (chat : String → String) :
    List (String × Option String) → Nat → List SubQueryResult
  | [], _ => []
  | q :: rest, count0 =>
    let r := singleLlmQuery maxLlmCalls warnThreshold maxRuntimeChars chat
      q.1 q.2 count0
    r :: runSingleQueries maxLlmCalls warnThreshold maxRuntimeChars chat rest
      r.count

/-! ## Environment budgets (`env.ts`) -/

/-- The possible observations `getEnvInt` makes of one environment variable:
absent or whitespace-only, `Number(...)` not an integer (incl. `NaN`), or an
integer value. -/
inductive EnvInput where
  | absent : EnvInput
  | blank : EnvInput
  | nonInt : EnvInput
  | intVal : Int → EnvInput
deriving DecidableEq, Repr

/--
```ts
export function getEnvInt(name: string, fallback: number): number {
  const raw = Deno.env.get(name);
  if (!raw || raw.trim().length === 0) return fallback;
  const parsed = Number(raw.trim());
  if (!Number.isInteger(parsed) || parsed <= 0) { ... return fallback; }
  return parsed;
}
```
-/
def getEnvInt (raw : EnvInput) (fallback : Int) : Int :=
  match raw with
  | .absent => fallback
  | .blank => fallback
  | .nonInt => fallback
  | .intVal n => if n ≤ 0 then fallback else n

/--
```ts
export function resolveWorkerBudgets() {
  const maxSteps = Math.max(getEnvInt("WORKER_MAX_STEPS", 80), 2);
  const requestedMaxLlmCalls = getEnvInt("WORKER_MAX_LLM_CALLS", 60);
  const maxLlmCalls = Math.min(requestedMaxLlmCalls, maxSteps - 1);
  ...
  return { maxSteps, maxLlmCalls };
}
```
-/
def resolveWorkerBudgets (stepsRaw llmCallsRaw : EnvInput) : Int × Int :=
  let maxSteps := max (getEnvInt stepsRaw 80) 2
  let requestedMaxLlmCalls := getEnvInt llmCallsRaw 60
  let maxLlmCalls := min requestedMaxLlmCalls (maxSteps - 1)
  (maxSteps, maxLlmCalls)

/-! ## Sandbox value formatting (`formatValue` in rlm_runtime.ts)

The values the worker posts back are embedded as `JSVal`; `undefined` is the
result of code producing no value.

```ts
function formatValue(value: unknown): string {
  if (value === undefined) return "(no output)";
  if (typeof value === "string") return value || "(no output)";
  try { return JSON.stringify(value, null, 2); } catch { return String(value); }
}
```
-/

inductive JSVal where
  | vundefined : JSVal
  | vnum : Int → JSVal
  | vstr : String → JSVal
deriving DecidableEq, Repr

def formatValue (value : JSVal) : String :=
  match value with
  | .vundefined => "(no output)"
  | .vstr s => if s = "" then "(no output)" else s
  | .vnum n => toString n

/-! ## The sandboxed code fragment

The worker evaluates submitted JavaScript along one of two paths, chosen by
`/\bawait\b/.test(code)` on the raw code text.  Code without the `await`
word runs through sloppy-mode indirect `eval`, so its `var` declarations
and bare assignments persist on `globalThis` across `execute` messages;
code with the `await` word (anywhere in the text, string literals included)
is wrapped in a `new AsyncFunction(...)`, inside which `var` declarations
are function-scoped and discarded when the call ends, while bare
assignments still reach `globalThis`.  Submitted code is embedded as a
statement language with `var` declarations, assignments and expression
statements over literals and variable references, one statement per line.
The worker also captures `console` output ("stdout mode"); this fragment
produces none, so the posted value is the evaluation result, matching
`const value = stdout || result` with empty `stdout`.  `runCode` below is
the sloppy-`eval` path; the `await` dispatch and the async-function path
are `workerRun`/`runCodeAsync` further down.
-/

inductive JSExpr where
  | lit : JSVal → JSExpr
  | varRef : String → JSExpr
deriving DecidableEq, Repr

inductive JSStmt where
  | varDecl : String → JSExpr → JSStmt
  | assign : String → JSExpr → JSStmt
  | exprStmt : JSExpr → JSStmt
deriving DecidableEq, Repr

abbrev JSCode := List JSStmt

/-- The persistent `globalThis` scope: later bindings shadow earlier ones. -/
abbrev JSEnv := List (String × JSVal)

def lookupVar : JSEnv → String → Option JSVal
  | [], _ => none
  | (y, w) :: rest, x => if x = y then some w else lookupVar rest x

def updateVar (env : JSEnv) (x : String) (v : JSVal) : JSEnv := (x, v) :: env

def evalExpr (env : JSEnv) : JSExpr → JSVal
  | .lit v => v
  | .varRef x => (lookupVar env x).getD .vundefined

/-- One statement: returns the updated scope and the statement's completion
value (`none` for declarations, whose completion is empty). -/
def runStmt (env : JSEnv) : JSStmt → JSEnv × Option JSVal
  | .varDecl x e => (updateVar env x (evalExpr env e), none)
  | .assign x e =>
    let w := evalExpr env e
    (updateVar env x w, some w)
  | .exprStmt e => (env, some (evalExpr env e))

/-- Sloppy-`eval`-path program evaluation, with `eval` completion
semantics: an empty completion keeps the previous completion value; the
initial completion value is `undefined`. -/
def runCodeAux (env : JSEnv) (acc : JSVal) : JSCode → JSEnv × JSVal
  | [] => (env, acc)
  | st :: rest =>
    let (env2, c) := runStmt env st
    runCodeAux env2 (match c with | some w => w | none => acc) rest

def runCode (env : JSEnv) (code : JSCode) : JSEnv × JSVal :=
  runCodeAux env .vundefined code

/-- Whether a statement binds or reassigns the given name. -/
def stmtAssigns (x : String) : JSStmt → Bool
  | .varDecl y _ => x = y
  | .assign y _ => x = y
  | .exprStmt _ => false

/-! ## Rendering code to the submitted string

The host-side guards in `execute` inspect the raw code string, so the
statement language is rendered to the character list the host would see
(one statement per line, JS string literals escaped). -/

def escapeChar (c : Char) : List Char :=
  if c = '\\' then ['\\', '\\']
  else if c = '\x22' then ['\\', '\x22']
  else if c = '\n' then ['\\', 'n']
  else [c]

def renderVal : JSVal → List Char
  | .vundefined => "undefined".data
  | .vnum n => (toString n).data
  | .vstr s => '\x22' :: (s.data.flatMap escapeChar ++ ['\x22'])

def renderExpr : JSExpr → List Char
  | .lit v => renderVal v
  | .varRef x => x.data

def renderStmt : JSStmt → List Char
  | .varDecl x e => "var ".data ++ x.data ++ " = ".data ++ renderExpr e
  | .assign x e => x.data ++ " = ".data ++ renderExpr e
  | .exprStmt e => renderExpr e

def renderCode : JSCode → List Char
  | [] => []
  | [st] => renderStmt st
  | st :: rest => renderStmt st ++ '\n' :: renderCode rest

/-! ## The reserved-name guard

`execute` tests, for each reserved name, the regular expression

```ts
new RegExp(`(?:^|[;\\n])\\s*(?:(?:var|let|const)\\s+)?${name}\\s*=`)
```

against the code string.  The matcher below embeds that test character by
character: a match starts at the beginning of the string or right after a
`;` or newline, skips whitespace, optionally passes a `var`/`let`/`const`
keyword followed by whitespace, then requires the name followed by optional
whitespace and `=`.  (For names made of identifier characters — the only
reserved names the agent installs — greedy whitespace skipping coincides
with the regex's backtracking search.) -/

def isJsWs (c : Char) : Bool :=
  c = ' ' || c = '\t' || c = '\n' || c = '\r' || c = '\x0b' || c = '\x0c'

def dropWs (l : List Char) : List Char := l.dropWhile isJsWs

def startsWithEq : List Char → Bool
  | c :: _ => c = '='
  | [] => false

def matchNameEq (name : List Char) (l : List Char) : Bool :=
  name.isPrefixOf l && startsWithEq (dropWs (l.drop name.length))

def afterKw (kw : List Char) (l : List Char) : Option (List Char) :=
  if kw.isPrefixOf l then
    match l.drop kw.length with
    | c :: rest => if isJsWs c then some (dropWs (c :: rest)) else none
    | [] => none
  else none

def matchesAssignAt (name : List Char) (l : List Char) : Bool :=
  let t := dropWs l
  matchNameEq name t ||
    (match afterKw "var".data t with | some r => matchNameEq name r | none => false) ||
    (match afterKw "let".data t with | some r => matchNameEq name r | none => false) ||
    (match afterKw "const".data t with | some r => matchNameEq name r | none => false)

def reservedHit (name : List Char) : List Char → Bool
  | [] => false
  | c :: rest =>
    ((c = ';' || c = '\n') && matchesAssignAt name rest) || reservedHit name rest

/-- The embedded `pattern.test(code)`. -/
def reservedAssignTest (name : String) (code : List Char) : Bool :=
  matchesAssignAt name.data code || reservedHit name.data code

/-! ## The "use strict" guard: `/['"]use strict['"]/.test(code)` -/

def containsSub (pat : List Char) : List Char → Bool
  | [] => pat.isEmpty
  | c :: rest => pat.isPrefixOf (c :: rest) || containsSub pat rest

def hasUseStrict (code : List Char) : Bool :=
  containsSub "\x27use strict\x27".data code ||
    containsSub "\x22use strict\x22".data code

/-! ## The sandbox session (`createSandboxSession` / `execute`) -/

structure SessionState where
  env : JSEnv
  closed : Bool
deriving DecidableEq, Repr

inductive ExecOutcome where
  | ok : String → ExecOutcome
  | err : String → ExecOutcome
deriving DecidableEq, Repr

def reservedRejectMsg (name : String) : String :=
  "[ERROR] Cannot reassign reserved variable \x27" ++ name ++
    "\x27. Use a different variable name."

def useStrictRejectMsg : String :=
  "[ERROR] \x22use strict\x22 is not allowed in the runtime session. Remove it and try again."

def createSandboxSession (globals : JSEnv) : SessionState :=
  { env := globals, closed := false }

/-- `execute(code, { reservedNames })` for code the worker routes to its
sloppy-`eval` path (no `await` word in the text).  `ok` is a resolved
promise, `err` a rejected one.  The guards run synchronously before any
message is posted to the worker, so a rejection leaves the session state
untouched.  `timesOut` abstracts whether the timer of this execution fires
before the worker answers; on timeout the session is terminated (`closed`).
`executeSessionFull` below adds the worker-side dispatch between the two
evaluation paths; on `await`-free code the two models coincide. -/
def executeSession (reservedNames : List String) (code : JSCode) (timesOut : Bool)
    (s : SessionState) : ExecOutcome × SessionState :=
  if s.closed then (.err "Session is closed", s)
  else
    match reservedNames.find? (fun n => reservedAssignTest n (renderCode code)) with
    | some n => (.ok (reservedRejectMsg n), s)
    | none =>
      if hasUseStrict (renderCode code) then (.ok useStrictRejectMsg, s)
      else if timesOut then (.err "Execution timed out", { s with closed := true })
      else
        let (env2, v) := runCode s.env code
        (.ok (formatValue v), { s with env := env2 })

/-- A sequence of `execute` calls on one session, none timing out. -/
def runCalls (reservedNames : List String) : SessionState → List JSCode → SessionState
  | s, [] => s
  | s, c :: rest => runCalls reservedNames (executeSession reservedNames c false s).2 rest

/-! ## The async-function evaluation path

```ts
if (/\bawait\b/.test(code)) {
  let asyncCode = code;
  try { asyncCode = injectAsyncAutoReturn(code); } catch { asyncCode = code; }
  const AsyncFunction = Object.getPrototypeOf(async function () {}).constructor;
  const fn = new AsyncFunction(asyncCode);
  result = await fn();
} else {
  const syncCode = rewriteTopLevelReturn(code);
  result = (0, eval)(syncCode);
}
```

Inside the `AsyncFunction` body, `var` introduces a function-local binding
discarded when the call returns; a bare assignment to a name with no local
binding writes `globalThis` (sloppy mode); a read walks local scope then
`globalThis` and otherwise throws `ReferenceError`.  `injectAsyncAutoReturn`
wraps the last statement line in `return (...)` unless it starts with a
declaration/control keyword, so the function returns the value of a final
expression or assignment statement and `undefined` otherwise.  Thrown
`ReferenceError`s are code errors, which the worker posts back as the result
VALUE string `name: message`.  (JS `var` hoisting is not modelled; the
straight-line codes exercised declare names before use.) -/

/-- JS regex `\w`: `[A-Za-z0-9_]`. -/
def isWordChar (c : Char) : Bool := c.isAlphanum || c = '_'

/-- The word `await` starts here and ends at a word boundary. -/
def awaitWordAt (l : List Char) : Bool :=
  "await".data.isPrefixOf l &&
    (match l.drop 5 with
     | [] => true
     | c :: _ => !isWordChar c)

def awaitScan (prevIsWord : Bool) : List Char → Bool
  | [] => false
  | c :: rest =>
    (!prevIsWord && awaitWordAt (c :: rest)) || awaitScan (isWordChar c) rest

/-- The dispatch test `/\bawait\b/.test(code)`: the word `await`, with word
boundaries, anywhere in the raw code text — string literals included. -/
def containsAwaitWord (l : List Char) : Bool := awaitScan false l

/-- Expression evaluation inside the async function: local scope first, then
`globalThis`, otherwise a thrown `ReferenceError`. -/
def evalExprAsync (global localEnv : JSEnv) : JSExpr → Except String JSVal
  | .lit v => Except.ok v
  | .varRef x =>
    match lookupVar localEnv x with
    | some v => Except.ok v
    | none =>
      match lookupVar global x with
      | some v => Except.ok v
      | none => Except.error ("ReferenceError: " ++ x ++ " is not defined")

/-- Statement-by-statement run of the async-function body.  The singleton
case is the last statement line, the one `injectAsyncAutoReturn` wraps in
`return (...)` when it is an expression or assignment; a trailing
declaration leaves the function returning `undefined`.  Returns the final
`globalThis` (the local scope is discarded) and the function's result or the
thrown error. -/
def runCodeAsyncAux (global localEnv : JSEnv) :
    JSCode → JSEnv × Except String JSVal
  | [] => (global, Except.ok JSVal.vundefined)
  | [st] =>
    match st with
    | .varDecl _ e =>
      match evalExprAsync global localEnv e with
      | .ok _ => (global, Except.ok JSVal.vundefined)
      | .error m => (global, Except.error m)
    | .assign x e =>
      match evalExprAsync global localEnv e with
      | .ok v =>
        match lookupVar localEnv x with
        | some _ => (global, Except.ok v)
        | none => (updateVar global x v, Except.ok v)
      | .error m => (global, Except.error m)
    | .exprStmt e =>
      match evalExprAsync global localEnv e with
      | .ok v => (global, Except.ok v)
      | .error m => (global, Except.error m)
  | st :: st2 :: rest =>
    match st with
    | .varDecl x e =>
      match evalExprAsync global localEnv e with
      | .ok v => runCodeAsyncAux global (updateVar localEnv x v) (st2 :: rest)
      | .error m => (global, Except.error m)
    | .assign x e =>
      match evalExprAsync global localEnv e with
      | .ok v =>
        match lookupVar localEnv x with
        | some _ => runCodeAsyncAux global (updateVar localEnv x v) (st2 :: rest)
        | none => runCodeAsyncAux (updateVar global x v) localEnv (st2 :: rest)
      | .error m => (global, Except.error m)
    | .exprStmt e =>
      match evalExprAsync global localEnv e with
      | .ok _ => runCodeAsyncAux global localEnv (st2 :: rest)
      | .error m => (global, Except.error m)

/-- One `AsyncFunction` call: a fresh, empty local scope. -/
def runCodeAsync (global : JSEnv) (code : JSCode) : JSEnv × Except String JSVal :=
  runCodeAsyncAux global [] code

/-- The worker-side evaluation of one `execute` message: dispatch on the
`await` word, then either the async-function path or the sloppy-`eval`
path.  A thrown code error (here `ReferenceError`) is posted back as the
result VALUE `name: message`, not as a protocol error. -/
def workerRun (env : JSEnv) (code : JSCode) : JSEnv × JSVal :=
  if containsAwaitWord (renderCode code) then
    match runCodeAsync env code with
    | (env2, Except.ok v) => (env2, v)
    | (env2, Except.error m) => (env2, JSVal.vstr m)
  else runCode env code

/-- `execute(code, { reservedNames })` with the full worker-side dispatch:
the guards as in `executeSession`, then `workerRun` for the evaluation. -/
def executeSessionFull (reservedNames : List String) (code : JSCode)
    (timesOut : Bool) (s : SessionState) : ExecOutcome × SessionState :=
  if s.closed then (.err "Session is closed", s)
  else
    match reservedNames.find? (fun n => reservedAssignTest n (renderCode code)) with
    | some n => (.ok (reservedRejectMsg n), s)
    | none =>
      if hasUseStrict (renderCode code) then (.ok useStrictRejectMsg, s)
      else if timesOut then (.err "Execution timed out", { s with closed := true })
      else
        let (env2, v) := workerRun s.env code
        (.ok (formatValue v), { s with env := env2 })

/-! ## Step-engine code execution (`executeCode` in rlm_agent.ts)

`executeCode` wraps `session.execute`: on success it truncates the output
(`raw || "(no output)"`) and appends to the code trajectory; on an
`Execution timed out` rejection it restarts the session once on the initial
context values, retries the same code, and reports the retried output (or a
plain error string) prefixed with the restart marker — never rethrowing on
that path.  `restarts` counts the fresh sessions created during the call
(instrumentation).  `t1`/`t2` abstract whether the first and the retried
execution time out. -/

def restartMsg : String :=
  "[The javascript runtime was restarted; all global state was lost and must be recreated if needed.]"

/-- `raw || "(no output)"`. -/
def orNoOutput (raw : String) : String := if raw = "" then "(no output)" else raw

structure AgentExecState where
  session : SessionState
  sessionTimedOut : Bool
  trajectory : List (JSCode × String)
deriving DecidableEq, Repr

structure ExecCallResult where
  res : ExecOutcome
  state : AgentExecState
  restarts : Nat
deriving DecidableEq, Repr

def executeCode (reservedNames : List String) (contextValues : JSEnv)
    (maxRuntimeChars : Nat) (code : JSCode) (t1 t2 : Bool)
    (st : AgentExecState) : ExecCallResult :=
  match executeSession reservedNames code t1 st.session with
  | (.ok raw, s1) =>
    let output := truncate (orNoOutput raw) maxRuntimeChars
    { res := .ok output,
      state := { session := s1, sessionTimedOut := st.sessionTimedOut,
                 trajectory := st.trajectory ++ [(code, output)] },
      restarts := 0 }
  | (.err m, s1) =>
    let flag := if m = "Execution timed out" then true else st.sessionTimedOut
    if m = "Session is closed" || m = "Execution timed out" then
      if flag then
        let fresh := createSandboxSession contextValues
        match executeSession reservedNames code t2 fresh with
        | (.ok raw2, s2) =>
          let output := truncate (restartMsg ++ "\n" ++ orNoOutput raw2) maxRuntimeChars
          { res := .ok output,
            state := { session := s2, sessionTimedOut := false,
                       trajectory := st.trajectory ++ [(code, output)] },
            restarts := 1 }
        | (.err m2, s2) =>
          let output := truncate (restartMsg ++ "\nError: " ++ m2) maxRuntimeChars
          { res := .ok output,
            state := { session := s2,
                       sessionTimedOut := if m2 = "Execution timed out" then true else false,
                       trajectory := st.trajectory ++ [(code, output)] },
            restarts := 1 }
      else
        let output := truncate ("Error: " ++ m) maxRuntimeChars
        { res := .ok output,
          state := { session := s1, sessionTimedOut := flag,
                     trajectory := st.trajectory ++ [(code, output)] },
          restarts := 0 }
    else
      { res := .err m,
        state := { session := s1, sessionTimedOut := flag,
                   trajectory := st.trajectory },
        restarts := 0 }

/-! ## The step loop and fallback extraction (`rlmAgentForward`)

The main loop is embedded with the model's replies abstracted per step:
`ready f` when the step's tool call carries a truthy `resultReady` with
output fields `f`, `code c` when it carries executable `javascriptCode`,
`other` when neither (the loop nudges and continues; it still counts
against the step ceiling).  `execOut i` abstracts the sandbox output of the
code executed at step `i`.  Output fields are embedded as association
lists. -/

abbrev OutputFields := List (String × String)

inductive StepReply where
  | ready : OutputFields → StepReply
  | code : JSCode → StepReply
  | other : StepReply

def isReadyReply : StepReply → Bool
  | .ready _ => true
  | _ => false

/-- `stripHelperFields`: deletes the `javascriptCode` and `resultReady`
helper keys before returning the domain fields. -/
def stripHelperFields (fields : OutputFields) : OutputFields :=
  fields.filter (fun kv => kv.1 ≠ "javascriptCode" && kv.1 ≠ "resultReady")

/-- `MaxStepsError` message thrown when the loop and the fallback both
fail. -/
def maxStepsMsg (maxSteps : Nat) (name : String) : String :=
  "Max steps reached: " ++ toString maxSteps ++
    " steps exhausted for agent \x22" ++ name ++ "\x22"

inductive ForwardErr where
  | maxStepsErr : String → ForwardErr
  | otherErr : String → ForwardErr
deriving DecidableEq, Repr

/-- The observable outcome of one `rlmAgentForward` invocation:
the returned fields or the thrown error, how many times the fallback
extractor ran, the trajectory it was handed, and the number of model turns
taken (each fires the `afterStep` hook). -/
structure ForwardOutcome where
  result : Except ForwardErr OutputFields
  fallbackCalls : Nat
  fallbackInput : Option (List (JSCode × String))
  turns : Nat

/-- The code trajectory accumulated by steps `start, …, start+count-1`:
one `{code, output}` record per code-bearing turn, in order. -/
def stepTrajectory (replies : Nat → StepReply) (execOut : Nat → String) :
    Nat → Nat → List (JSCode × String)
  | _, 0 => []
  | start, count + 1 =>
    (match replies start with
     | .code c => [(c, execOut start)]
     | _ => []) ++ stepTrajectory replies execOut (start + 1) count

/-- The main loop of `rlmAgentForward`, running `remaining` more steps from
step index `step` with trajectory `traj` so far.  When the step budget is
exhausted without a completion signal, the fallback extractor runs exactly
once on the full trajectory; `some f` means it produced a structured result
(the parsed arguments of its tool call), `none` that it failed (malformed
response or call failure — a single attempt, no retry). -/
def forwardAux (replies : Nat → StepReply) (execOut : Nat → String)
    (fallback : List (JSCode × String) → Option OutputFields)
    (maxSteps : Nat) (name : String) :
    Nat → Nat → List (JSCode × String) → ForwardOutcome
  | 0, step, traj =>
    match fallback traj with
    | some f => { result := .ok f, fallbackCalls := 1, fallbackInput := some traj,
                  turns := step }
    | none => { result := .error (.maxStepsErr (maxStepsMsg maxSteps name)),
                fallbackCalls := 1, fallbackInput := some traj, turns := step }
  | remaining + 1, step, traj =>
    match replies step with
    | .ready f =>
      { result := .ok (stripHelperFields f), fallbackCalls := 0,
        fallbackInput := none, turns := step + 1 }
    | .code c =>
      forwardAux replies execOut fallback maxSteps name remaining (step + 1)
        (traj ++ [(c, execOut step)])
    | .other =>
      forwardAux replies execOut fallback maxSteps name remaining (step + 1) traj

def rlmAgentForward (replies : Nat → StepReply) (execOut : Nat → String)
    (fallback : List (JSCode × String) → Option OutputFields)
    (maxSteps : Nat) (name : String) : ForwardOutcome :=
  forwardAux replies execOut fallback maxSteps name maxSteps 0 []

/-! ## Step records and error classification (`loop_helpers.ts`) -/

structure TokenUsage where
  promptTokens : Nat
  completionTokens : Nat
  totalTokens : Nat
deriving DecidableEq, Repr

structure WorkerStepRecord where
  stepIndex : Nat
  promptTokens : Nat
  completionTokens : Nat
  totalTokens : Nat
deriving DecidableEq, Repr

/-- `makeStepCollector`'s accumulated `steps` after `n` model turns: the
`afterStep` hook fires once per turn with `{stepIndex, usage}`. -/
def collectSteps (usage : Nat → TokenUsage) (n : Nat) : List WorkerStepRecord :=
  (List.range n).map fun i =>
    { stepIndex := i, promptTokens := (usage i).promptTokens,
      completionTokens := (usage i).completionTokens,
      totalTokens := (usage i).totalTokens }

structure WorkerError where
  tag : String
  message : String
  stepsCompleted : Nat
  maxSteps : Int
  totalTokensUsed : Nat
  steps : List WorkerStepRecord
  suggestions : List String
deriving DecidableEq, Repr

/-- `classifyWorkerError(err, steps)`: `MaxStepsError` becomes a typed
`max-steps-reached` worker error with step/token diagnostics; anything else
is passed through (`null`). `envMaxSteps` is `getEnvInt("WORKER_MAX_STEPS", 80)`. -/
def classifyWorkerError (err : ForwardErr) (steps : List WorkerStepRecord)
    (envMaxSteps : Int) : Option WorkerError :=
  match err with
  | .otherErr _ => none
  | .maxStepsErr msg =>
    let lastStep := steps.getLast?
    some
      { tag := "max-steps-reached", message := msg,
        stepsCompleted := match lastStep with
          | some s => s.stepIndex + 1
          | none => 0,
        maxSteps := envMaxSteps,
        totalTokensUsed := match lastStep with
          | some s => s.totalTokens
          | none => 0,
        steps := steps,
        suggestions :=
          [ "Increase WORKER_MAX_STEPS (current: " ++ toString envMaxSteps ++
              "). Try " ++ toString (envMaxSteps * 2) ++ ".",
            "Increase WORKER_MAX_LLM_CALLS proportionally.",
            "Simplify the query or reduce document length." ] }

/-! ## Batched sub-queries (`batchedLlmQuery`)

The worker pool shares a cursor `nextIdx` and a results array; each worker
repeatedly claims `nextIdx++` synchronously (the JS event loop serialises
the synchronous sections), awaits the sub-query for the claimed item, and
writes the result — or the item's error tagged `[ERROR] …` — at the claimed
index.  The interleaving of claims and completions is modelled as a
small-step transition relation; `outcome i` abstracts the awaited
`singleLlmQuery(items[i].query, items[i].context)` as either a value or a
thrown error message. -/

inductive WorkerPhase where
  | idle : WorkerPhase
  | busy : Nat → WorkerPhase
  | done : WorkerPhase
deriving DecidableEq, Repr

structure BatchState where
  nextIdx : Nat
  results : List (Option String)
  workers : List WorkerPhase
deriving DecidableEq, Repr

/-- The string stored for item `i`: the sub-query result, or the error
message of that item alone, tagged. -/
def batchItemResult (outcome : Nat → Except String String) (i : Nat) : String :=
  match outcome i with
  | .ok s => s
  | .error m => "[ERROR] " ++ m

/-- `Array.from({length: Math.min(concurrency, items.length)}, …)` then
`Promise.all`: the initial pool state. -/
def batchInit (len concurrency : Nat) : BatchState :=
  { nextIdx := 0, results := List.replicate len none,
    workers := List.replicate (min concurrency len) .idle }

/-- One scheduler step of the pool.
`claim`: an idle worker runs `const idx = nextIdx++`; if the claimed index
is in range it proceeds to await that item, otherwise its loop returns.
`complete`: a worker's awaited sub-query settles and it writes the item's
result (or per-item error tag) at the claimed index, then loops back. -/
inductive BatchStep (len : Nat) (outcome : Nat → Except String String) :
    BatchState → BatchState → Prop
  | claim (s : BatchState) (w : Nat) (hw : s.workers[w]? = some WorkerPhase.idle) :
    BatchStep len outcome s
      { nextIdx := s.nextIdx + 1, results := s.results,
        workers := s.workers.set w
          (if s.nextIdx < len then .busy s.nextIdx else .done) }
  | complete (s : BatchState) (w i : Nat) (hw : s.workers[w]? = some (WorkerPhase.busy i)) :
    BatchStep len outcome s
      { nextIdx := s.nextIdx,
        results := s.results.set i (some (batchItemResult outcome i)),
        workers := s.workers.set w .idle }

/-- `Promise.all(workers)` has resolved: every worker's loop has returned. -/
def batchTerminal (s : BatchState) : Prop :=
  ∀ w ∈ s.workers, w = WorkerPhase.done

/-- The inductive invariant of the pool: the results array keeps its length;
the worker list keeps its size; every in-range slot is either already filled
with its own item's result or still empty and accounted for (not yet
reached by the cursor, or claimed by exactly the worker that will fill it);
claimed indices are in range; and a worker only retires after the cursor
has passed the end. -/
def BatchInv (len : Nat) (outcome : Nat → Except String String) (W : Nat)
    (s : BatchState) : Prop :=
  s.results.length = len ∧
  s.workers.length = W ∧
  (∀ i, i < len →
    s.results[i]? = some (some (batchItemResult outcome i)) ∨
    (s.results[i]? = some none ∧
      (s.nextIdx ≤ i ∨ ∃ w : Nat, s.workers[w]? = some (WorkerPhase.busy i)))) ∧
  (∀ w i : Nat, s.workers[w]? = some (WorkerPhase.busy i) → i < len) ∧
  ((∃ w : Nat, s.workers[w]? = some WorkerPhase.done) → len ≤ s.nextIdx)

/-! # Theorems -/

/-! ## C10 — resolved worker budgets keep the sub-query ceiling under the step ceiling -/

/-- C10: for every environment configuration (absent, blank, non-integer,
non-positive or positive values for `WORKER_MAX_STEPS` and
`WORKER_MAX_LLM_CALLS`), the resolved budgets satisfy `maxSteps ≥ 2` and
`maxLlmCalls ≤ maxSteps - 1`, hence `maxLlmCalls < maxSteps`. -/
theorem resolveWorkerBudgets_ceilings (stepsRaw llmCallsRaw : EnvInput) :
    2 ≤ (resolveWorkerBudgets stepsRaw llmCallsRaw).1 ∧
    (resolveWorkerBudgets stepsRaw llmCallsRaw).2
      ≤ (resolveWorkerBudgets stepsRaw llmCallsRaw).1 - 1 ∧
    (resolveWorkerBudgets stepsRaw llmCallsRaw).2
      < (resolveWorkerBudgets stepsRaw llmCallsRaw).1 := by
  refine ⟨le_max_right _ _, min_le_right _ _, ?_⟩
  exact lt_of_le_of_lt (min_le_right _ _) (sub_one_lt _)

/-! ## C7 — "no output" versus the explicit empty string -/

/-- C7 counterexample: the serialized display of an explicit empty string is
identical to the display of no value produced — both are `"(no output)"`
(`value || "(no output)"` treats the empty string as falsy). -/
theorem formatValue_empty_eq_undef :
    formatValue (JSVal.vstr "") = formatValue JSVal.vundefined := rfl

/-- C7 (amended): code producing no value and code producing an explicit
empty string are displayed the SAME, both as `"(no output)"`; every
non-empty string displays as itself. -/
theorem formatValue_noOutput_collapse :
    formatValue JSVal.vundefined = "(no output)" ∧
    formatValue (JSVal.vstr "") = "(no output)" ∧
    ∀ s : String, s ≠ "" → formatValue (JSVal.vstr s) = s := by
  refine ⟨rfl, rfl, ?_⟩
  intro s hs
  simp [formatValue, hs]

/-- Witness for the amended C7 theorem at the concrete string `"x"`. -/
theorem formatValue_noOutput_collapse_w :
    formatValue (JSVal.vstr "x") = "x" :=
  formatValue_noOutput_collapse.2.2 "x" (by decide)

/-! ## C8 — context truncation before sending -/

/-- C8 counterexample: with per-call character ceiling 1 and context
`"ab"`, the context actually sent is `"a\n...[truncated 1 chars]"`, whose
length is 24 — it EXCEEDS the ceiling, because `truncate` appends a
truncation marker after cutting. -/
theorem truncate_exceeds_ceiling_cex :
    (singleLlmQuery 10 8 1 (fun _ => "A") "q" (some "ab") 0).sent
      = some ("Context:\n" ++ truncate "ab" 1 ++ "\n\nQuery: q") ∧
    truncate "ab" 1 = "a\n...[truncated 1 chars]" ∧
    (truncate "ab" 1).length = 24 ∧ 1 < 24 := by
  refine ⟨rfl, rfl, rfl, by omega⟩

/-- C8 (amended): the context sent with a sub-query is the supplied string
passed through `truncate` with the per-call ceiling: a context within the
ceiling is sent unchanged; a longer one is sent as its first ceiling-many
characters followed by a truncation marker (so the sent string may exceed
the ceiling by the marker's length, but the retained original content never
does). -/
theorem subquery_context_truncation (maxLlmCalls warnThreshold maxRuntimeChars : Nat)
    (chat : String → String) (query c : String) (count0 : Nat)
    (hbudget : count0 + 1 ≤ maxLlmCalls) (hc : c ≠ "") :
    (singleLlmQuery maxLlmCalls warnThreshold maxRuntimeChars chat query
        (some c) count0).sent
      = some ("Context:\n" ++ truncate c maxRuntimeChars ++ "\n\nQuery: " ++ query) ∧
    (c.length ≤ maxRuntimeChars → truncate c maxRuntimeChars = c) ∧
    (maxRuntimeChars < c.length →
      (truncate c maxRuntimeChars).data.take maxRuntimeChars
          = c.data.take maxRuntimeChars ∧
      (truncate c maxRuntimeChars).length
          = maxRuntimeChars + 22 + (toString (c.length - maxRuntimeChars)).length) := by
  refine ⟨?_, ?_, ?_⟩
  · have hlt : ¬ maxLlmCalls < count0 + 1 := by omega
    simp only [singleLlmQuery, if_neg hlt, if_neg hc]
    split <;> rfl
  · intro hle
    simp [truncate, hle]
  · intro hgt
    have hle : ¬ c.length ≤ maxRuntimeChars := by omega
    constructor
    · simp only [truncate, if_neg hle, String.data_append]
      have hlen : (List.take maxRuntimeChars c.data).length = maxRuntimeChars := by
        rw [List.length_take]
        exact min_eq_left (le_of_lt hgt)
      rw [List.append_assoc, List.append_assoc, List.take_append_eq_append_take,
        List.take_take, Nat.min_self, hlen, Nat.sub_self, List.take_zero,
        List.append_nil]
    · simp only [truncate, if_neg hle, String.length_append]
      have h1 : (String.mk (c.data.take maxRuntimeChars)).length = maxRuntimeChars := by
        show (c.data.take maxRuntimeChars).length = maxRuntimeChars
        rw [List.length_take]
        exact min_eq_left (le_of_lt hgt)
      have h2 : ("\n...[truncated " : String).length = 15 := rfl
      have h3 : (" chars]" : String).length = 7 := rfl
      rw [h1, h2, h3]
      omega

/-- Witness for the amended C8 theorem: ceiling 1, context `"ab"`; the
hypotheses `0 + 1 ≤ 10` and `"ab" ≠ ""` hold and the sent context is the
truncation of `"ab"`. -/
theorem subquery_context_truncation_w :
    (singleLlmQuery 10 8 1 (fun _ => "A") "q" (some "ab") 0).sent
      = some ("Context:\n" ++ truncate "ab" 1 ++ "\n\nQuery: q") :=
  (subquery_context_truncation 10 8 1 (fun _ => "A") "q" "ab" 0 (by decide)
    (by decide)).1

/-! ## C1 — the sub-query call ceiling is never exceeded -/

theorem singleLlmQuery_over_budget (maxLlmCalls warnThreshold maxRuntimeChars : Nat)
    (chat : String → String) (query : String) (context : Option String)
    (count0 : Nat) (hgt : maxLlmCalls < count0 + 1) :
    singleLlmQuery maxLlmCalls warnThreshold maxRuntimeChars chat query context
        count0
      = { invoked := false, sent := none,
          result := subQueryBudgetMsg maxLlmCalls, count := count0 + 1 } := by
  unfold singleLlmQuery
  rw [if_pos hgt]

theorem singleLlmQuery_within_budget (maxLlmCalls warnThreshold maxRuntimeChars : Nat)
    (chat : String → String) (query : String) (context : Option String)
    (count0 : Nat) (hle : count0 + 1 ≤ maxLlmCalls) :
    ∃ u : String,
      singleLlmQuery maxLlmCalls warnThreshold maxRuntimeChars chat query context
          count0
        = if count0 + 1 = warnThreshold then
            { invoked := true, sent := some u,
              result := chat u ++ warnSuffix (count0 + 1) maxLlmCalls,
              count := count0 + 1 }
          else
            { invoked := true, sent := some u, result := chat u,
              count := count0 + 1 } := by
  unfold singleLlmQuery
  rw [if_neg (by omega)]
  exact ⟨_, rfl⟩

theorem singleLlmQuery_count (maxLlmCalls warnThreshold maxRuntimeChars : Nat)
    (chat : String → String) (query : String) (context : Option String)
    (count0 : Nat) :
    (singleLlmQuery maxLlmCalls warnThreshold maxRuntimeChars chat query context
      count0).count = count0 + 1 := by
  rcases Nat.lt_or_ge maxLlmCalls (count0 + 1) with hgt | hle
  · rw [singleLlmQuery_over_budget _ _ _ _ _ _ _ hgt]
  · obtain ⟨u, hu⟩ := singleLlmQuery_within_budget maxLlmCalls warnThreshold
      maxRuntimeChars chat query context count0 hle
    rw [hu]
    split <;> rfl

theorem runSingleQueries_get? (maxLlmCalls warnThreshold maxRuntimeChars : Nat)
    (chat : String → String) :
    ∀ (calls : List (String × Option String)) (count0 i : Nat),
      (runSingleQueries maxLlmCalls warnThreshold maxRuntimeChars chat calls
          count0).get? i
        = (calls.get? i).map
            (fun q => singleLlmQuery maxLlmCalls warnThreshold maxRuntimeChars
              chat q.1 q.2 (count0 + i)) := by
  intro calls
  induction calls with
  | nil => intro count0 i; simp [runSingleQueries]
  | cons q rest ih =>
    intro count0 i
    cases i with
    | zero => simp [runSingleQueries]
    | succ j =>
      simp only [runSingleQueries, List.get?_cons_succ, ih, singleLlmQuery_count]
      have : count0 + 1 + j = count0 + (j + 1) := by omega
      rw [this]

/-- C1: with call ceiling `N` and a sequence of `M` single sub-query calls
within one invocation, the `i`-th call (0-based) actually invokes the model
precisely when `i + 1 ≤ N`; every later call returns the budget-exhausted
error-marked string without sending anything to the model (the function
returns the marker, it does not throw). -/
theorem subquery_budget_ceiling (maxLlmCalls warnThreshold maxRuntimeChars : Nat)
    (chat : String → String) (calls : List (String × Option String))
    (i : Nat) (h : i < calls.length) :
    ∃ r : SubQueryResult,
      (runSingleQueries maxLlmCalls warnThreshold maxRuntimeChars chat
          calls 0).get? i = some r ∧
      (r.invoked = true ↔ i + 1 ≤ maxLlmCalls) ∧
      (maxLlmCalls < i + 1 →
        r.invoked = false ∧ r.sent = none ∧
        r.result = subQueryBudgetMsg maxLlmCalls) := by
  have hq : calls.get? i = some (calls.get ⟨i, h⟩) := List.get?_eq_get h
  set q := calls.get ⟨i, h⟩ with hqdef
  refine ⟨singleLlmQuery maxLlmCalls warnThreshold maxRuntimeChars chat q.1 q.2 i,
    ?_, ?_, ?_⟩
  · rw [runSingleQueries_get?, hq]
    simp
  · constructor
    · intro hinv
      by_contra hgt
      rw [singleLlmQuery_over_budget _ _ _ _ _ _ _ (by omega)] at hinv
      exact Bool.false_ne_true hinv
    · intro hle
      obtain ⟨u, hu⟩ := singleLlmQuery_within_budget maxLlmCalls warnThreshold
        maxRuntimeChars chat q.1 q.2 i (by omega)
      rw [hu]
      split <;> rfl
  · intro hgt
    rw [singleLlmQuery_over_budget _ _ _ _ _ _ _ (by omega)]
    exact ⟨rfl, rfl, rfl⟩

/-- Witness for C1: ceiling 1, three calls; the third call (index 2, so
`2 < 3` and `1 < 2 + 1`) is short-circuited to the budget marker. -/
theorem subquery_budget_ceiling_w :
    ∃ r : SubQueryResult,
      (runSingleQueries 1 0 2000 (fun _ => "A")
          [("a", none), ("b", none), ("c", none)] 0).get? 2 = some r ∧
      (r.invoked = true ↔ 2 + 1 ≤ 1) ∧
      (1 < 2 + 1 →
        r.invoked = false ∧ r.sent = none ∧ r.result = subQueryBudgetMsg 1) :=
  subquery_budget_ceiling 1 0 2000 (fun _ => "A")
    [("a", none), ("b", none), ("c", none)] 2 (by decide)

/-! ## C9 — the 80% high-water-mark warning -/

/-- C9 counterexample: ceiling 10, high-water mark `Math.floor(10 * 0.8) = 8`.
The 9th call (index 8) is made at a point where the count has already
crossed the mark and is still under the ceiling, yet its result is the bare
model reply `"A"` — the soft warning is appended only to the single call
whose count EQUALS the mark, not to every call after it. -/
theorem subquery_warning_not_after_highwater_cex :
    (runSingleQueries 10 8 2000 (fun _ => "A")
        (List.replicate 10 ("q", (none : Option String))) 0).get? 8
      = some { invoked := true, sent := some "q", result := "A", count := 9 } ∧
    "A" ≠ "A" ++ warnSuffix 9 10 := by
  refine ⟨rfl, by decide⟩

/-- C9 (amended): among the in-budget sub-query calls, exactly the call whose
running count equals the high-water mark (`Math.floor(0.8 · ceiling)`) has
the soft warning appended to its result; every other in-budget call returns
the model reply unmodified. -/
theorem subquery_warning_at_highwater_only (maxLlmCalls warnThreshold maxRuntimeChars : Nat)
    (chat : String → String) (calls : List (String × Option String))
    (i : Nat) (h : i < calls.length) (hin : i + 1 ≤ maxLlmCalls) :
    ∃ r u,
      (runSingleQueries maxLlmCalls warnThreshold maxRuntimeChars chat
          calls 0).get? i = some r ∧
      r.sent = some u ∧
      r.result = (if i + 1 = warnThreshold then
          chat u ++ warnSuffix (i + 1) maxLlmCalls
        else chat u) := by
  have hq : calls.get? i = some (calls.get ⟨i, h⟩) := List.get?_eq_get h
  obtain ⟨u, hu⟩ := singleLlmQuery_within_budget maxLlmCalls warnThreshold
    maxRuntimeChars chat (calls.get ⟨i, h⟩).1 (calls.get ⟨i, h⟩).2 i (by omega)
  refine ⟨singleLlmQuery maxLlmCalls warnThreshold maxRuntimeChars chat
    (calls.get ⟨i, h⟩).1 (calls.get ⟨i, h⟩).2 i, u, ?_, ?_, ?_⟩
  · rw [runSingleQueries_get?, hq]
    simp
  · rw [hu]
    split <;> rfl
  · by_cases hw : i + 1 = warnThreshold
    · rw [hu, if_pos hw, if_pos hw]
    · rw [hu, if_neg hw, if_neg hw]

/-- Witness for the amended C9 theorem: the 8th call (index 7) of an
in-budget run with ceiling 10 and mark 8 carries the warning. -/
theorem subquery_warning_at_highwater_only_w :
    ∃ r u,
      (runSingleQueries 10 8 2000 (fun _ => "A")
          (List.replicate 10 ("q", (none : Option String))) 0).get? 7 = some r ∧
      r.sent = some u ∧
      r.result = (if 7 + 1 = 8 then
          (fun _ => "A") u ++ warnSuffix (7 + 1) 10
        else (fun _ => "A") u) :=
  subquery_warning_at_highwater_only 10 8 2000 (fun _ => "A")
    (List.replicate 10 ("q", (none : Option String))) 7 (by decide) (by decide)

/-! ## C3 — reserved-name reassignment is rejected without executing -/

theorem dropWs_cons_neg (c : Char) (l : List Char) (h : isJsWs c = false) :
    dropWs (c :: l) = c :: l := by
  simp [dropWs, List.dropWhile_cons, h]

theorem dropWs_cons_pos (c : Char) (l : List Char) (h : isJsWs c = true) :
    dropWs (c :: l) = dropWs l := by
  simp [dropWs, List.dropWhile_cons, h]

theorem isPrefixOf_append_self (l₁ l₂ : List Char) :
    l₁.isPrefixOf (l₁ ++ l₂) = true := by
  induction l₁ with
  | nil => simp [List.isPrefixOf_nil_left]
  | cons c n ih => simp [List.isPrefixOf, ih]

/-- The name followed by a tail that exposes `=` after whitespace matches the
`name\s*=` core of the guard regex. -/
theorem matchNameEq_self_append (name suffix : List Char) (l : List Char)
    (hsuf : dropWs suffix = '=' :: l) :
    matchNameEq name (name ++ suffix) = true := by
  unfold matchNameEq
  rw [isPrefixOf_append_self, List.drop_left, hsuf]
  rfl

/-- The rendered ` = e` tail always exposes an `=` after whitespace. -/
theorem dropWs_eq_tail (tail : List Char) :
    dropWs (' ' :: '=' :: ' ' :: tail) = '=' :: ' ' :: tail := by
  rw [dropWs_cons_pos _ _ (by decide), dropWs_cons_neg _ _ (by decide)]

theorem matchNameEq_dropWs_self (name : List Char)
    (hname : name.all (fun c => !isJsWs c) = true) (tail l : List Char)
    (htail : dropWs tail = '=' :: l) :
    matchNameEq name (dropWs (name ++ tail)) = true := by
  cases name with
  | nil =>
    simp only [List.nil_append]
    rw [htail]
    rfl
  | cons c n =>
    have hc : isJsWs c = false := by
      simp only [List.all_cons, Bool.and_eq_true, Bool.not_eq_true'] at hname
      exact hname.1
    rw [List.cons_append, dropWs_cons_neg _ _ hc, ← List.cons_append]
    exact matchNameEq_self_append _ _ _ htail

/-- A rendered plain assignment to `name` (a name without whitespace
characters) matches the guard pattern at its start, whatever follows. -/
theorem matchesAssignAt_assign_render (name : String)
    (hname : name.data.all (fun c => !isJsWs c) = true) (e : JSExpr)
    (rest : List Char) :
    matchesAssignAt name.data
      (renderStmt (JSStmt.assign name e) ++ rest) = true := by
  have hdat : (" = " : String).data = [' ', '=', ' '] := by decide
  have hstmt : renderStmt (JSStmt.assign name e) ++ rest
      = name.data ++ (' ' :: '=' :: ' ' :: (renderExpr e ++ rest)) := by
    simp only [renderStmt, hdat, List.append_assoc, List.cons_append,
      List.nil_append]
  have h1 : matchNameEq name.data
      (dropWs (name.data ++ (' ' :: '=' :: ' ' :: (renderExpr e ++ rest)))) = true :=
    matchNameEq_dropWs_self name.data hname _ _ (dropWs_eq_tail _)
  simp only [matchesAssignAt]
  rw [hstmt]
  simp [h1]

/-- A rendered `var` declaration of `name` matches the guard pattern (via
its optional-keyword branch) at its start, whatever follows. -/
theorem matchesAssignAt_varDecl_render (name : String)
    (hname : name.data.all (fun c => !isJsWs c) = true) (e : JSExpr)
    (rest : List Char) :
    matchesAssignAt name.data
      (renderStmt (JSStmt.varDecl name e) ++ rest) = true := by
  have hdat : (" = " : String).data = [' ', '=', ' '] := by decide
  have hvar : ("var " : String).data = ['v', 'a', 'r', ' '] := by decide
  have hstmt : renderStmt (JSStmt.varDecl name e) ++ rest
      = 'v' :: 'a' :: 'r' :: ' ' ::
          (name.data ++ (' ' :: '=' :: ' ' :: (renderExpr e ++ rest))) := by
    simp only [renderStmt, hdat, hvar, List.append_assoc, List.cons_append,
      List.nil_append]
  have h1 : matchNameEq name.data
      (dropWs (name.data ++ (' ' :: '=' :: ' ' :: (renderExpr e ++ rest)))) = true :=
    matchNameEq_dropWs_self name.data hname _ _ (dropWs_eq_tail _)
  have hd : dropWs ('v' :: 'a' :: 'r' :: ' ' ::
      (name.data ++ (' ' :: '=' :: ' ' :: (renderExpr e ++ rest))))
      = 'v' :: 'a' :: 'r' :: ' ' ::
          (name.data ++ (' ' :: '=' :: ' ' :: (renderExpr e ++ rest))) :=
    dropWs_cons_neg _ _ (by decide)
  have hkw : afterKw "var".data ('v' :: 'a' :: 'r' :: ' ' ::
      (name.data ++ (' ' :: '=' :: ' ' :: (renderExpr e ++ rest))))
      = some (dropWs (name.data ++ (' ' :: '=' :: ' ' :: (renderExpr e ++ rest)))) := rfl
  simp only [matchesAssignAt]
  rw [hstmt, hd, hkw]
  simp [h1]

theorem reservedHit_append (name a l : List Char)
    (h : reservedHit name l = true) : reservedHit name (a ++ l) = true := by
  induction a with
  | nil => exact h
  | cons c a' ih => simp [reservedHit, ih]

theorem reservedHit_newline (name l : List Char)
    (h : matchesAssignAt name l = true) :
    reservedHit name ('\n' :: l) = true := by
  simp [reservedHit, h]

/-- Any straight-line code containing an assignment (plain or `var`) to a
whitespace-free name is caught by the guard pattern on its rendered string:
the statement sits at the start of the string or right after the newline
separating it from the previous one, exactly where the regex looks. -/
theorem reservedAssignTest_render_of_assign (name : String)
    (hname : name.data.all (fun c => !isJsWs c) = true) :
    ∀ (code : JSCode) (st : JSStmt), st ∈ code → stmtAssigns name st = true →
      reservedAssignTest name (renderCode code) = true := by
  intro code
  induction code with
  | nil => intro st hst _; exact absurd hst (List.not_mem_nil st)
  | cons c0 rest ih =>
    intro st hst hassign
    rcases List.mem_cons.1 hst with heq | hmem
    · subst heq
      have hmat : ∀ tail : List Char,
          matchesAssignAt name.data (renderStmt st ++ tail) = true := by
        intro tail
        cases st with
        | varDecl y e =>
          have hy : name = y := by
            have := hassign
            simp only [stmtAssigns, decide_eq_true_eq] at this
            exact this
          subst hy
          exact matchesAssignAt_varDecl_render name hname e tail
        | assign y e =>
          have hy : name = y := by
            have := hassign
            simp only [stmtAssigns, decide_eq_true_eq] at this
            exact this
          subst hy
          exact matchesAssignAt_assign_render name hname e tail
        | exprStmt e => simp [stmtAssigns] at hassign
      cases rest with
      | nil =>
        have h0 := hmat []
        rw [List.append_nil] at h0
        simp [reservedAssignTest, renderCode, h0]
      | cons r1 rs =>
        have h0 := hmat ('\n' :: renderCode (r1 :: rs))
        simp [reservedAssignTest, renderCode, h0]
    · cases rest with
      | nil => exact absurd hmem (List.not_mem_nil st)
      | cons r1 rs =>
        have htest := ih st hmem hassign
        have hhit : reservedHit name.data ('\n' :: renderCode (r1 :: rs)) = true := by
          rcases Bool.or_eq_true_iff.1 htest with hm | hh
          · exact reservedHit_newline _ _ hm
          · exact reservedHit_append _ ['\n'] _ hh
        have hfull : reservedHit name.data
            (renderStmt c0 ++ '\n' :: renderCode (r1 :: rs)) = true :=
          reservedHit_append _ _ _ hhit
        simp [reservedAssignTest, renderCode, hfull]

/-- C3: any submitted code (in the straight-line fragment) that reassigns a
reserved name — whether by `var` declaration or bare assignment — never
executes: `execute` resolves synchronously to the descriptive rejection
string for some reserved name caught by the guard, no exception is raised,
and the session state is returned completely unchanged. -/
theorem reserved_name_rejection (reservedNames : List String) (name : String)
    (hmem : name ∈ reservedNames)
    (hname : name.data.all (fun c => !isJsWs c) = true)
    (code : JSCode) (st : JSStmt) (hst : st ∈ code)
    (hassign : stmtAssigns name st = true)
    (s : SessionState) (hopen : s.closed = false) (timesOut : Bool) :
    ∃ n : String, n ∈ reservedNames ∧
      executeSession reservedNames code timesOut s
        = (ExecOutcome.ok (reservedRejectMsg n), s) := by
  have hfind : (reservedNames.find?
      (fun n => reservedAssignTest n (renderCode code))).isSome := by
    rw [List.find?_isSome]
    exact ⟨name, hmem,
      reservedAssignTest_render_of_assign name hname code st hst hassign⟩
  obtain ⟨n, hn⟩ := Option.isSome_iff_exists.mp hfind
  refine ⟨n, List.mem_of_find?_eq_some hn, ?_⟩
  unfold executeSession
  rw [hn]
  simp [hopen]

/-- Witness for C3: `llmQuery = 1` against reserved names
`["llmQuery", "doc"]` on a fresh session is rejected with the session
unchanged. -/
theorem reserved_name_rejection_w :
    ∃ n : String, n ∈ ["llmQuery", "doc"] ∧
      executeSession ["llmQuery", "doc"]
          [JSStmt.assign "llmQuery" (JSExpr.lit (JSVal.vnum 1))] false
          (createSandboxSession [("doc", JSVal.vstr "D")])
        = (ExecOutcome.ok (reservedRejectMsg n),
            createSandboxSession [("doc", JSVal.vstr "D")]) :=
  reserved_name_rejection ["llmQuery", "doc"] "llmQuery" (by decide) (by decide)
    [JSStmt.assign "llmQuery" (JSExpr.lit (JSVal.vnum 1))]
    (JSStmt.assign "llmQuery" (JSExpr.lit (JSVal.vnum 1))) (by decide) (by decide)
    (createSandboxSession [("doc", JSVal.vstr "D")]) rfl false

/-! ## C2 — persistence of session variables across execute() calls

Persistence holds on the sloppy-`eval` path
(`session_variable_persistence` below) but NOT on the async-function path:
any submitted code whose text matches `/\bawait\b/` — in particular every
`await llmQuery(...)` use, and even a mere string literal containing the
word — is evaluated inside a fresh `AsyncFunction`, whose `var`
declarations are function-scoped and discarded, contradicting the runtime
usage notes the agent itself serves to the model ("State is
session-scoped: `var` declarations persist across calls (sloppy-mode
eval). Prefer `var` over `let`/`const` for cross-call variables.") and the
worker comment "sloppy eval so var persists on globalThis".
`await_var_declaration_lost` below evaluates the full model at such an
input. -/

theorem lookupVar_updateVar_ne (env : JSEnv) (x y : String) (v : JSVal)
    (h : x ≠ y) : lookupVar (updateVar env y v) x = lookupVar env x := by
  simp [updateVar, lookupVar, h]

theorem runCodeAux_lookup_preserved (x : String) :
    ∀ (code : JSCode) (env : JSEnv) (acc : JSVal),
      (∀ st ∈ code, stmtAssigns x st = false) →
      lookupVar (runCodeAux env acc code).1 x = lookupVar env x := by
  intro code
  induction code with
  | nil => intro env acc _; rfl
  | cons st rest ih =>
    intro env acc hfree
    have hst := hfree st (List.mem_cons_self st rest)
    have hrest : ∀ s ∈ rest, stmtAssigns x s = false :=
      fun s hs => hfree s (List.mem_cons_of_mem st hs)
    cases st with
    | varDecl y e =>
      have hxy : x ≠ y := by simpa [stmtAssigns] using hst
      simp only [runCodeAux, runStmt]
      rw [ih _ _ hrest, lookupVar_updateVar_ne _ _ _ _ hxy]
    | assign y e =>
      have hxy : x ≠ y := by simpa [stmtAssigns] using hst
      simp only [runCodeAux, runStmt]
      rw [ih _ _ hrest, lookupVar_updateVar_ne _ _ _ _ hxy]
    | exprStmt e =>
      simp only [runCodeAux, runStmt]
      exact ih _ _ hrest

/-- `execute` with no timeout never changes whether the session is closed. -/
theorem executeSession_closed_stable (reservedNames : List String)
    (code : JSCode) (s : SessionState) :
    (executeSession reservedNames code false s).2.closed = s.closed := by
  unfold executeSession
  by_cases hc : s.closed = true
  · simp [hc]
  · cases hf : reservedNames.find? (fun n => reservedAssignTest n (renderCode code)) with
    | some n => simp [hc, hf]
    | none =>
      by_cases hus : hasUseStrict (renderCode code) = true
      · simp [hc, hf, hus]
      · simp [hc, hf, hus]

/-- `execute` with no timeout leaves a variable's binding untouched when the
submitted code does not assign to it (whichever way the call resolved:
rejected by a guard, or executed). -/
theorem executeSession_lookup_preserved (reservedNames : List String)
    (code : JSCode) (x : String) (s : SessionState)
    (hfree : ∀ st ∈ code, stmtAssigns x st = false) :
    lookupVar (executeSession reservedNames code false s).2.env x
      = lookupVar s.env x := by
  unfold executeSession
  by_cases hc : s.closed = true
  · simp [hc]
  · cases hf : reservedNames.find? (fun n => reservedAssignTest n (renderCode code)) with
    | some n => simp [hc, hf]
    | none =>
      by_cases hus : hasUseStrict (renderCode code) = true
      · simp [hc, hf, hus]
      · simp [hc, hf, hus, runCode]
        exact runCodeAux_lookup_preserved x code s.env .vundefined hfree

theorem runCalls_preserves (reservedNames : List String) (x : String) :
    ∀ (mids : List JSCode) (s : SessionState),
      (∀ c ∈ mids, ∀ st ∈ c, stmtAssigns x st = false) →
      lookupVar (runCalls reservedNames s mids).env x = lookupVar s.env x ∧
      (runCalls reservedNames s mids).closed = s.closed := by
  intro mids
  induction mids with
  | nil => intro s _; exact ⟨rfl, rfl⟩
  | cons c cs ih =>
    intro s hfree
    have h1e := executeSession_lookup_preserved reservedNames c x s
      (hfree c (List.mem_cons_self c cs))
    have h1c := executeSession_closed_stable reservedNames c s
    have h2 := ih (executeSession reservedNames c false s).2
      (fun c' hc' => hfree c' (List.mem_cons_of_mem c hc'))
    exact ⟨h2.1.trans h1e, h2.2.trans h1c⟩

theorem startsWithEq_false (l : List Char) (h : '=' ∉ l) :
    startsWithEq l = false := by
  cases l with
  | nil => rfl
  | cons c l2 =>
    have hc : c ≠ '=' := fun he => h (he ▸ List.mem_cons_self c l2)
    simp [startsWithEq, hc]

theorem matchNameEq_false_of_no_eq (name t : List Char) (h : '=' ∉ t) :
    matchNameEq name t = false := by
  unfold matchNameEq
  have hsub : List.Sublist (dropWs (t.drop name.length)) t :=
    (List.dropWhile_sublist _).trans (List.drop_sublist _ _)
  have h2 : '=' ∉ dropWs (t.drop name.length) := fun hm => h (hsub.subset hm)
  rw [startsWithEq_false _ h2]
  simp

theorem afterKw_sublist (kw t r : List Char) (h : afterKw kw t = some r) :
    List.Sublist r t := by
  unfold afterKw at h
  by_cases hp : kw.isPrefixOf t = true
  · rw [if_pos hp] at h
    cases hdrop : t.drop kw.length with
    | nil => rw [hdrop] at h; simp at h
    | cons c rest =>
      rw [hdrop] at h
      dsimp only at h
      by_cases hws : isJsWs c = true
      · rw [if_pos hws] at h
        have hr : r = dropWs (c :: rest) := by
          injection h with h2
          exact h2.symm
        rw [hr]
        exact (List.dropWhile_sublist _).trans (hdrop ▸ List.drop_sublist _ _)
      · rw [if_neg hws] at h
        simp at h
  · rw [if_neg hp] at h
    simp at h

theorem matchesAssignAt_false_of_no_eq (name l : List Char) (h : '=' ∉ l) :
    matchesAssignAt name l = false := by
  have hdw : List.Sublist (dropWs l) l := List.dropWhile_sublist _
  have hne : '=' ∉ dropWs l := fun hm => h (hdw.subset hm)
  have h1 : matchNameEq name (dropWs l) = false :=
    matchNameEq_false_of_no_eq _ _ hne
  have h2 : ∀ kw : List Char,
      (match afterKw kw (dropWs l) with
        | some r => matchNameEq name r
        | none => false) = false := by
    intro kw
    cases hk : afterKw kw (dropWs l) with
    | none => rfl
    | some r =>
      have hr := afterKw_sublist kw _ r hk
      have hrne : '=' ∉ r := fun hm => hne (hr.subset hm)
      simp [matchNameEq_false_of_no_eq _ _ hrne]
  simp only [matchesAssignAt]
  rw [h1, h2, h2, h2]
  rfl

theorem reservedHit_false_of_no_eq (name l : List Char) (h : '=' ∉ l) :
    reservedHit name l = false := by
  induction l with
  | nil => rfl
  | cons c rest ih =>
    have hrest : '=' ∉ rest := fun hm => h (List.mem_cons_of_mem _ hm)
    simp [reservedHit, matchesAssignAt_false_of_no_eq _ _ hrest, ih hrest]

theorem reservedAssignTest_false_of_no_eq (name : String) (l : List Char)
    (h : '=' ∉ l) : reservedAssignTest name l = false := by
  simp [reservedAssignTest, matchesAssignAt_false_of_no_eq _ _ h,
    reservedHit_false_of_no_eq _ _ h]

theorem containsSub_false_of_head_not_mem (c0 : Char) (pat l : List Char)
    (h : c0 ∉ l) : containsSub (c0 :: pat) l = false := by
  induction l with
  | nil => rfl
  | cons c rest ih =>
    have hc : c0 ≠ c := fun he => h (he ▸ List.mem_cons_self c rest)
    have hr : c0 ∉ rest := fun hm => h (List.mem_cons_of_mem _ hm)
    simp [containsSub, List.isPrefixOf, hc, ih hr]

theorem hasUseStrict_false_of_no_quote (l : List Char) (h27 : '\x27' ∉ l)
    (h22 : '\x22' ∉ l) : hasUseStrict l = false := by
  have hq1 : ("\x27use strict\x27" : String).data
      = '\x27' :: "use strict\x27".data := by decide
  have hq2 : ("\x22use strict\x22" : String).data
      = '\x22' :: "use strict\x22".data := by decide
  simp [hasUseStrict, hq1, hq2,
    containsSub_false_of_head_not_mem _ _ _ h27,
    containsSub_false_of_head_not_mem _ _ _ h22]

/-- A bare variable-reference read passes both guards and returns the
variable's current value, leaving the session untouched. -/
theorem executeSession_read (reservedNames : List String) (x : String)
    (hx : x.data.all (fun c => !(c = '=' || c = '\x27' || c = '\x22')) = true)
    (s : SessionState) (hopen : s.closed = false) (v : JSVal)
    (hv : lookupVar s.env x = some v) :
    executeSession reservedNames [JSStmt.exprStmt (JSExpr.varRef x)] false s
      = (ExecOutcome.ok (formatValue v), s) := by
  obtain ⟨env0, cl0⟩ := s
  have hcl : cl0 = false := hopen
  subst hcl
  have hrender : renderCode [JSStmt.exprStmt (JSExpr.varRef x)] = x.data := rfl
  have hneq : '=' ∉ x.data := fun hm => by
    simpa using List.all_eq_true.mp hx _ hm
  have hn27 : '\x27' ∉ x.data := fun hm => by
    simpa using List.all_eq_true.mp hx _ hm
  have hn22 : '\x22' ∉ x.data := fun hm => by
    simpa using List.all_eq_true.mp hx _ hm
  have hfind : reservedNames.find?
      (fun n => reservedAssignTest n
        (renderCode [JSStmt.exprStmt (JSExpr.varRef x)])) = none := by
    rw [List.find?_eq_none]
    intro n _
    rw [hrender, reservedAssignTest_false_of_no_eq n x.data hneq]
    simp
  have hus : hasUseStrict (renderCode [JSStmt.exprStmt (JSExpr.varRef x)]) = false := by
    rw [hrender]
    exact hasUseStrict_false_of_no_quote _ hn27 hn22
  unfold executeSession
  rw [hfind]
  simp [hus, runCode, runCodeAux, runStmt, evalExpr, hv]

/-- Sloppy-`eval`-path persistence: within one session with no restart, for
calls the worker routes to indirect `eval`, a variable bound by the code of
an earlier `execute()` call (read off the state `s1` that the call
produced) remains bound with the same value through any further calls whose
code does not reassign it, and a later `execute()` reading the variable
returns its bound value. -/
theorem session_variable_persistence (reservedNames : List String)
    (s0 : SessionState) (c0 : JSCode) (o0 : String) (s1 : SessionState)
    (hexec : executeSession reservedNames c0 false s0 = (ExecOutcome.ok o0, s1))
    (x : String) (v : JSVal) (hx0 : lookupVar s1.env x = some v)
    (hx : x.data.all (fun c => !(c = '=' || c = '\x27' || c = '\x22')) = true)
    (mids : List JSCode)
    (hmids : ∀ c ∈ mids, ∀ st ∈ c, stmtAssigns x st = false) :
    lookupVar (runCalls reservedNames s1 mids).env x = some v ∧
    executeSession reservedNames [JSStmt.exprStmt (JSExpr.varRef x)] false
        (runCalls reservedNames s1 mids)
      = (ExecOutcome.ok (formatValue v), runCalls reservedNames s1 mids) := by
  have h0open : s0.closed = false := by
    by_cases hc : s0.closed = true
    · exfalso
      unfold executeSession at hexec
      rw [if_pos hc] at hexec
      simp at hexec
    · exact Bool.not_eq_true _ ▸ eq_false_of_ne_true hc
  have h1open : s1.closed = false := by
    have hst := executeSession_closed_stable reservedNames c0 s0
    rw [hexec] at hst
    exact hst.trans h0open
  have hp := runCalls_preserves reservedNames x mids s1 hmids
  have hlook : lookupVar (runCalls reservedNames s1 mids).env x = some v :=
    hp.1.trans hx0
  have hcl : (runCalls reservedNames s1 mids).closed = false :=
    hp.2.trans h1open
  exact ⟨hlook, executeSession_read reservedNames x hx _ hcl v hlook⟩

/-- Concrete instance of the sloppy-`eval`-path persistence lemma:
`var acc = 7` in one call, an unrelated call in between, then reading
`acc` returns `7` (displayed as `"7"`). -/
theorem session_variable_persistence_w :
    lookupVar (runCalls ["llmQuery", "doc"]
        { env := [("acc", JSVal.vnum 7), ("doc", JSVal.vstr "D")], closed := false }
        [[JSStmt.exprStmt (JSExpr.lit (JSVal.vnum 1))]]).env "acc"
      = some (JSVal.vnum 7) ∧
    executeSession ["llmQuery", "doc"] [JSStmt.exprStmt (JSExpr.varRef "acc")] false
        (runCalls ["llmQuery", "doc"]
          { env := [("acc", JSVal.vnum 7), ("doc", JSVal.vstr "D")], closed := false }
          [[JSStmt.exprStmt (JSExpr.lit (JSVal.vnum 1))]])
      = (ExecOutcome.ok (formatValue (JSVal.vnum 7)),
          runCalls ["llmQuery", "doc"]
            { env := [("acc", JSVal.vnum 7), ("doc", JSVal.vstr "D")], closed := false }
            [[JSStmt.exprStmt (JSExpr.lit (JSVal.vnum 1))]]) :=
  session_variable_persistence ["llmQuery", "doc"]
    (createSandboxSession [("doc", JSVal.vstr "D")])
    [JSStmt.varDecl "acc" (JSExpr.lit (JSVal.vnum 7))] "(no output)"
    { env := [("acc", JSVal.vnum 7), ("doc", JSVal.vstr "D")], closed := false }
    (by decide) "acc" (JSVal.vnum 7) (by decide) (by decide)
    [[JSStmt.exprStmt (JSExpr.lit (JSVal.vnum 1))]] (by decide)

/-- On `await`-free code the full model and the sloppy-`eval`-path model
agree: the dispatch is the only difference. -/
theorem executeSessionFull_eq_executeSession (reservedNames : List String)
    (code : JSCode) (timesOut : Bool) (s : SessionState)
    (h : containsAwaitWord (renderCode code) = false) :
    executeSessionFull reservedNames code timesOut s
      = executeSession reservedNames code timesOut s := by
  unfold executeSessionFull executeSession workerRun
  rw [h]
  rfl

/-- Witness for the dispatch-agreement lemma at a concrete `await`-free
code. -/
theorem executeSessionFull_eq_executeSession_w :
    executeSessionFull ["llmQuery", "doc"]
        [JSStmt.varDecl "acc" (JSExpr.lit (JSVal.vnum 7))] false
        (createSandboxSession [("doc", JSVal.vstr "D")])
      = executeSession ["llmQuery", "doc"]
          [JSStmt.varDecl "acc" (JSExpr.lit (JSVal.vnum 7))] false
          (createSandboxSession [("doc", JSVal.vstr "D")]) :=
  executeSessionFull_eq_executeSession ["llmQuery", "doc"]
    [JSStmt.varDecl "acc" (JSExpr.lit (JSVal.vnum 7))] false
    (createSandboxSession [("doc", JSVal.vstr "D")]) (by decide)

/-- C2 (failing input): a `var` declaration in a call whose code text
contains the `await` word is routed to the `AsyncFunction` path and does
NOT persist.  `execute("var y = \x22merge notes with await later\x22")`
leaves the session state exactly unchanged (the binding was
function-local) and reports `(no output)` (a trailing declaration gets no
auto-return); a later `await`-routed call reading `y` yields
`ReferenceError: y is not defined` instead of the bound value, contrary to
the claim and to the runtime notes served to the model. -/
theorem await_var_declaration_lost :
    containsAwaitWord (renderCode
        [JSStmt.varDecl "y" (JSExpr.lit (JSVal.vstr "merge notes with await later"))])
      = true ∧
    executeSessionFull ["llmQuery", "doc"]
        [JSStmt.varDecl "y" (JSExpr.lit (JSVal.vstr "merge notes with await later"))]
        false (createSandboxSession [("doc", JSVal.vstr "D")])
      = (ExecOutcome.ok "(no output)",
          createSandboxSession [("doc", JSVal.vstr "D")]) ∧
    lookupVar (createSandboxSession [("doc", JSVal.vstr "D")]).env "y" = none ∧
    (executeSessionFull ["llmQuery", "doc"]
        [JSStmt.varDecl "z" (JSExpr.lit (JSVal.vstr "still await here")),
          JSStmt.exprStmt (JSExpr.varRef "y")]
        false (createSandboxSession [("doc", JSVal.vstr "D")])).1
      = ExecOutcome.ok "ReferenceError: y is not defined" := by
  refine ⟨by decide, by decide, rfl, by decide⟩

/-! ## C4 — timeout triggers exactly one restart-and-retry -/

/-- C4: when an `execute()` call times out (first attempt `t1 = true` on an
open session, code passing the guards), `executeCode` performs exactly one
restart-and-retry of the same code on a fresh session built from the
initial context values, never letting an exception escape: the result is a
returned output string recorded in the trajectory.  If the retry succeeds
(`t2 = false`), the output is the retried run on the FRESH state (prior
session state lost), prefixed with the restart marker.  If the retry also
times out (`t2 = true`), the output is a plain error string carrying the
restart marker. -/
theorem timeout_restart_retry (reservedNames : List String)
    (contextValues : JSEnv) (maxRuntimeChars : Nat) (code : JSCode)
    (t2 : Bool) (st : AgentExecState)
    (hopen : st.session.closed = false)
    (hguard : reservedNames.find?
      (fun n => reservedAssignTest n (renderCode code)) = none)
    (hus : hasUseStrict (renderCode code) = false) :
    (executeCode reservedNames contextValues maxRuntimeChars code true t2
        st).restarts = 1 ∧
    (∃ out,
      (executeCode reservedNames contextValues maxRuntimeChars code true t2
          st).res = ExecOutcome.ok out ∧
      (executeCode reservedNames contextValues maxRuntimeChars code true t2
          st).state.trajectory = st.trajectory ++ [(code, out)]) ∧
    (t2 = true →
      (executeCode reservedNames contextValues maxRuntimeChars code true t2
          st).res
        = ExecOutcome.ok (truncate
            (restartMsg ++ "\nError: Execution timed out") maxRuntimeChars) ∧
      (executeCode reservedNames contextValues maxRuntimeChars code true t2
          st).state.sessionTimedOut = true) ∧
    (t2 = false →
      (executeCode reservedNames contextValues maxRuntimeChars code true t2
          st).res
        = ExecOutcome.ok (truncate
            (restartMsg ++ "\n" ++
              orNoOutput (formatValue (runCode contextValues code).2))
            maxRuntimeChars) ∧
      (executeCode reservedNames contextValues maxRuntimeChars code true t2
          st).state.session.env = (runCode contextValues code).1 ∧
      (executeCode reservedNames contextValues maxRuntimeChars code true t2
          st).state.session.closed = false ∧
      (executeCode reservedNames contextValues maxRuntimeChars code true t2
          st).state.sessionTimedOut = false) := by
  obtain ⟨⟨env0, cl0⟩, fl0, traj0⟩ := st
  have hcl : cl0 = false := hopen
  subst hcl
  have hne : "Execution timed out" ≠ "Session is closed" := by decide
  have happ : restartMsg ++ "\nError: " ++ "Execution timed out"
      = restartMsg ++ "\nError: Execution timed out" := by decide
  cases t2 with
  | true =>
    refine ⟨?_, ⟨truncate (restartMsg ++ "\nError: Execution timed out")
      maxRuntimeChars, ?_, ?_⟩, fun _ => ⟨?_, ?_⟩, fun h => absurd h (by simp)⟩ <;>
      simp [executeCode, executeSession, createSandboxSession, hguard, hus, hne,
        happ]
  | false =>
    refine ⟨?_, ⟨truncate (restartMsg ++ "\n" ++
        orNoOutput (formatValue (runCode contextValues code).2)) maxRuntimeChars,
        ?_, ?_⟩, fun h => absurd h (by simp), fun _ => ⟨?_, ?_, ?_, ?_⟩⟩ <;>
      simp [executeCode, executeSession, createSandboxSession, hguard, hus,
        hne, runCode]

/-- Witness for C4: a concrete timed-out call (`var x = 1; x` with the first
attempt timing out, the retry succeeding) performs exactly one restart. -/
theorem timeout_restart_retry_w :
    (executeCode ["llmQuery", "doc"] [("doc", JSVal.vstr "D")] 2000
        [JSStmt.varDecl "x" (JSExpr.lit (JSVal.vnum 1)),
          JSStmt.exprStmt (JSExpr.varRef "x")] true false
        { session := createSandboxSession [("doc", JSVal.vstr "D")],
          sessionTimedOut := false, trajectory := [] }).restarts = 1 :=
  (timeout_restart_retry ["llmQuery", "doc"] [("doc", JSVal.vstr "D")] 2000
    [JSStmt.varDecl "x" (JSExpr.lit (JSVal.vnum 1)),
      JSStmt.exprStmt (JSExpr.varRef "x")] false
    { session := createSandboxSession [("doc", JSVal.vstr "D")],
      sessionTimedOut := false, trajectory := [] } rfl (by decide) (by decide)).1

/-! ## C5 — step-ceiling exhaustion invokes the fallback exactly once -/

theorem forwardAux_no_ready (replies : Nat → StepReply) (execOut : Nat → String)
    (fallback : List (JSCode × String) → Option OutputFields)
    (maxSteps : Nat) (name : String) :
    ∀ (remaining step : Nat) (traj : List (JSCode × String)),
      (∀ i, step ≤ i → i < step + remaining → isReadyReply (replies i) = false) →
      forwardAux replies execOut fallback maxSteps name remaining step traj
        = forwardAux replies execOut fallback maxSteps name 0 (step + remaining)
            (traj ++ stepTrajectory replies execOut step remaining) := by
  intro remaining
  induction remaining with
  | zero => intro step traj _; simp [stepTrajectory]
  | succ r ih =>
    intro step traj hnr
    have h0 : isReadyReply (replies step) = false :=
      hnr step (le_refl _) (by omega)
    cases hrep : replies step with
    | ready f =>
      rw [hrep] at h0
      simp [isReadyReply] at h0
    | code c =>
      simp only [forwardAux, hrep]
      rw [ih (step + 1) (traj ++ [(c, execOut step)])
        (fun i h1 h2 => hnr i (by omega) (by omega))]
      rw [show step + 1 + r = step + (r + 1) by omega]
      simp [forwardAux, stepTrajectory, hrep, List.append_assoc]
    | other =>
      simp only [forwardAux, hrep]
      rw [ih (step + 1) traj (fun i h1 h2 => hnr i (by omega) (by omega))]
      rw [show step + 1 + r = step + (r + 1) by omega]
      simp [forwardAux, stepTrajectory, hrep]

theorem collectSteps_getLast? (usage : Nat → TokenUsage) (n : Nat) (h : 0 < n) :
    (collectSteps usage n).getLast? = some
      { stepIndex := n - 1, promptTokens := (usage (n - 1)).promptTokens,
        completionTokens := (usage (n - 1)).completionTokens,
        totalTokens := (usage (n - 1)).totalTokens } := by
  obtain ⟨m, rfl⟩ : ∃ m, n = m + 1 := ⟨n - 1, by omega⟩
  unfold collectSteps
  rw [List.range_succ, List.map_append]
  simp

/-- C5: if no step of the loop carries a completion signal, the fallback
extractor is invoked exactly once, with the full code trajectory of the
run; if it yields a structured result those fields are returned, and if it
fails the invocation surfaces the typed `MaxStepsError`, which
`classifyWorkerError` turns into a `max-steps-reached` worker error carrying
step and token diagnostics — never a silent empty success. -/
theorem max_steps_fallback (replies : Nat → StepReply) (execOut : Nat → String)
    (fallback : List (JSCode × String) → Option OutputFields)
    (maxSteps : Nat) (name : String) (usage : Nat → TokenUsage)
    (envMaxSteps : Int)
    (hnr : ∀ i, i < maxSteps → isReadyReply (replies i) = false)
    (hpos : 0 < maxSteps) :
    (rlmAgentForward replies execOut fallback maxSteps name).fallbackCalls = 1 ∧
    (rlmAgentForward replies execOut fallback maxSteps name).fallbackInput
      = some (stepTrajectory replies execOut 0 maxSteps) ∧
    (rlmAgentForward replies execOut fallback maxSteps name).turns = maxSteps ∧
    (∀ f, fallback (stepTrajectory replies execOut 0 maxSteps) = some f →
      (rlmAgentForward replies execOut fallback maxSteps name).result
        = Except.ok f) ∧
    (fallback (stepTrajectory replies execOut 0 maxSteps) = none →
      (rlmAgentForward replies execOut fallback maxSteps name).result
        = Except.error (ForwardErr.maxStepsErr (maxStepsMsg maxSteps name)) ∧
      ∃ we : WorkerError,
        classifyWorkerError (ForwardErr.maxStepsErr (maxStepsMsg maxSteps name))
          (collectSteps usage maxSteps) envMaxSteps = some we ∧
        we.tag = "max-steps-reached" ∧
        we.message = maxStepsMsg maxSteps name ∧
        we.stepsCompleted = maxSteps ∧
        we.totalTokensUsed = (usage (maxSteps - 1)).totalTokens ∧
        we.maxSteps = envMaxSteps) := by
  have hrun := forwardAux_no_ready replies execOut fallback maxSteps name
    maxSteps 0 [] (fun i h1 h2 => hnr i (by omega))
  unfold rlmAgentForward
  rw [hrun]
  simp only [Nat.zero_add, List.nil_append]
  cases hf : fallback (stepTrajectory replies execOut 0 maxSteps) with
  | some f =>
    refine ⟨by simp [forwardAux, hf], by simp [forwardAux, hf],
      by simp [forwardAux, hf], ?_, ?_⟩
    · intro f2 hf2
      injection hf2 with hf2
      subst hf2
      simp [forwardAux, hf]
    · intro hnone
      exact absurd hnone (by simp)
  | none =>
    refine ⟨by simp [forwardAux, hf], by simp [forwardAux, hf],
      by simp [forwardAux, hf], ?_, ?_⟩
    · intro f2 hf2
      exact absurd hf2 (by simp)
    · intro _
      refine ⟨by simp [forwardAux, hf], ?_⟩
      refine ⟨_, rfl, rfl, rfl, ?_, ?_, rfl⟩
      · simp [classifyWorkerError, collectSteps_getLast? usage maxSteps hpos]
        omega
      · simp [classifyWorkerError, collectSteps_getLast? usage maxSteps hpos]

/-- Witness for C5: two steps, neither carrying a completion signal, one of
them code-bearing; the fallback succeeds with `[("answer", "ok")]` and its
fields are returned, the fallback having run exactly once on the full
trajectory. -/
theorem max_steps_fallback_w :
    (rlmAgentForward
        (fun i => if i = 0 then StepReply.code [JSStmt.exprStmt (JSExpr.lit (JSVal.vnum 1))]
          else StepReply.other)
        (fun _ => "1") (fun _ => some [("answer", "ok")]) 2 "claudeWorker").fallbackCalls = 1 ∧
    (rlmAgentForward
        (fun i => if i = 0 then StepReply.code [JSStmt.exprStmt (JSExpr.lit (JSVal.vnum 1))]
          else StepReply.other)
        (fun _ => "1") (fun _ => some [("answer", "ok")]) 2 "claudeWorker").result
      = Except.ok [("answer", "ok")] := by
  have h := max_steps_fallback
    (fun i => if i = 0 then StepReply.code [JSStmt.exprStmt (JSExpr.lit (JSVal.vnum 1))]
      else StepReply.other)
    (fun _ => "1") (fun _ => some [("answer", "ok")]) 2 "claudeWorker"
    (fun _ => { promptTokens := 1, completionTokens := 1, totalTokens := 2 }) 80
    (by intro i hi; interval_cases i <;> simp [isReadyReply]) (by decide)
  exact ⟨h.1, h.2.2.2.1 [("answer", "ok")] rfl⟩

/-! ## C6 — batched sub-queries preserve index alignment -/

theorem batchInv_init (len concurrency : Nat)
    (outcome : Nat → Except String String) :
    BatchInv len outcome (min concurrency len) (batchInit len concurrency) := by
  refine ⟨List.length_replicate _ _, List.length_replicate _ _, ?_, ?_, ?_⟩
  · intro i hi
    right
    constructor
    · simp [batchInit, List.getElem?_replicate, hi]
    · exact Or.inl (Nat.zero_le i)
  · intro w i hw
    simp only [batchInit, List.getElem?_replicate] at hw
    split at hw
    · simp at hw
    · simp at hw
  · rintro ⟨w, hw⟩
    simp only [batchInit, List.getElem?_replicate] at hw
    split at hw
    · simp at hw
    · simp at hw

theorem getElem?_some_lt_length (l : List WorkerPhase) (w : Nat)
    (ph : WorkerPhase) (hw : l[w]? = some ph) : w < l.length := by
  by_contra hc
  push_neg at hc
  rw [List.getElem?_eq_none hc] at hw
  simp at hw

theorem batchInv_step (len W : Nat) (outcome : Nat → Except String String)
    (s t : BatchState) (hstep : BatchStep len outcome s t)
    (hinv : BatchInv len outcome W s) : BatchInv len outcome W t := by
  obtain ⟨hlenR, hlenW, hres, hbusy, hdone⟩ := hinv
  cases hstep with
  | claim w hw =>
    have hwlt : w < s.workers.length := getElem?_some_lt_length _ _ _ hw
    refine ⟨hlenR, by rw [List.length_set]; exact hlenW, ?_, ?_, ?_⟩
    · intro i hi
      rcases hres i hi with hfilled | ⟨hempty, hwhere⟩
      · exact Or.inl hfilled
      · rcases hwhere with hcur | ⟨w', hw'⟩
        · by_cases hieq : i = s.nextIdx
          · subst hieq
            refine Or.inr ⟨hempty, Or.inr ⟨w, ?_⟩⟩
            rw [List.getElem?_set_self hwlt, if_pos hi]
          · exact Or.inr ⟨hempty, Or.inl (by dsimp only; omega)⟩
        · have hne : w ≠ w' := by
            intro he
            subst he
            rw [hw'] at hw
            simp at hw
          refine Or.inr ⟨hempty, Or.inr ⟨w', ?_⟩⟩
          rw [List.getElem?_set_ne hne]
          exact hw'
    · intro w' i hw'
      by_cases he : w = w'
      · subst he
        rw [List.getElem?_set_self hwlt] at hw'
        by_cases hc : s.nextIdx < len
        · rw [if_pos hc] at hw'
          injection hw' with h2
          injection h2 with h3
          omega
        · rw [if_neg hc] at hw'
          simp at hw'
      · rw [List.getElem?_set_ne he] at hw'
        exact hbusy w' i hw'
    · rintro ⟨w', hw'⟩
      by_cases he : w = w'
      · subst he
        rw [List.getElem?_set_self hwlt] at hw'
        by_cases hc : s.nextIdx < len
        · rw [if_pos hc] at hw'
          simp at hw'
        · dsimp only
          omega
      · rw [List.getElem?_set_ne he] at hw'
        have := hdone ⟨w', hw'⟩
        dsimp only
        omega
  | complete w i0 hw =>
    have hwlt : w < s.workers.length := getElem?_some_lt_length _ _ _ hw
    have hi0 : i0 < len := hbusy w i0 hw
    have hi0R : i0 < s.results.length := by rw [hlenR]; exact hi0
    refine ⟨by rw [List.length_set]; exact hlenR,
      by rw [List.length_set]; exact hlenW, ?_, ?_, ?_⟩
    · intro i hi
      by_cases he : i0 = i
      · subst he
        left
        rw [List.getElem?_set_self hi0R]
      · rcases hres i hi with hfilled | ⟨hempty, hwhere⟩
        · left
          rw [List.getElem?_set_ne he]
          exact hfilled
        · refine Or.inr ⟨by rw [List.getElem?_set_ne he]; exact hempty, ?_⟩
          rcases hwhere with hcur | ⟨w', hw'⟩
          · exact Or.inl hcur
          · have hne : w ≠ w' := by
              intro heq
              subst heq
              rw [hw'] at hw
              injection hw with h2
              injection h2 with h3
              exact he h3.symm
            exact Or.inr ⟨w', by rw [List.getElem?_set_ne hne]; exact hw'⟩
    · intro w' i hw'
      by_cases he : w = w'
      · subst he
        rw [List.getElem?_set_self hwlt] at hw'
        simp at hw'
      · rw [List.getElem?_set_ne he] at hw'
        exact hbusy w' i hw'
    · rintro ⟨w', hw'⟩
      by_cases he : w = w'
      · subst he
        rw [List.getElem?_set_self hwlt] at hw'
        simp at hw'
      · rw [List.getElem?_set_ne he] at hw'
        exact hdone ⟨w', hw'⟩

theorem batchInv_reach (len concurrency : Nat)
    (outcome : Nat → Except String String) (s : BatchState)
    (hreach : Relation.ReflTransGen (BatchStep len outcome)
      (batchInit len concurrency) s) :
    BatchInv len outcome (min concurrency len) s := by
  induction hreach with
  | refl => exact batchInv_init len concurrency outcome
  | tail _ hstep ih => exact batchInv_step _ _ outcome _ _ hstep ih

/-- C6: for any interleaving of the worker pool's claims and completions
(any reachable terminal state of the scheduler), the results array has the
same length as the input array, and the entry at every index `i` is exactly
the result computed for input item `i` — the item's sub-query answer, or,
if that item's call failed, the error-tagged string for that item alone.
Completion order and concurrency never change this alignment, and one
item's failure never aborts or alters sibling entries. -/
theorem batched_llm_query_alignment (len concurrency : Nat)
    (outcome : Nat → Except String String) (hconc : 0 < concurrency)
    (s : BatchState)
    (hreach : Relation.ReflTransGen (BatchStep len outcome)
      (batchInit len concurrency) s)
    (hterm : batchTerminal s) :
    s.results.length = len ∧
    ∀ i : Nat, i < len →
      s.results[i]? = some (some (batchItemResult outcome i)) := by
  obtain ⟨hlenR, hlenW, hres, hbusy, hdone⟩ :=
    batchInv_reach len concurrency outcome s hreach
  refine ⟨hlenR, ?_⟩
  intro i hi
  have hW : 0 < min concurrency len := lt_min hconc (by omega)
  have h0 : 0 < s.workers.length := by rw [hlenW]; exact hW
  have hph : ∃ ph, s.workers[0]? = some ph := by
    cases hg : s.workers[0]? with
    | none =>
      rw [List.getElem?_eq_getElem h0] at hg
      exact absurd hg (by simp)
    | some ph => exact ⟨ph, rfl⟩
  obtain ⟨ph, hph⟩ := hph
  have hmem : ph ∈ s.workers := List.getElem?_mem hph
  have hdone0 : ph = WorkerPhase.done := hterm ph hmem
  have hcur : len ≤ s.nextIdx := hdone ⟨0, hdone0 ▸ hph⟩
  rcases hres i hi with hfilled | ⟨_, hwhere⟩
  · exact hfilled
  · exfalso
    rcases hwhere with hc | ⟨w', hw'⟩
    · omega
    · have hmem' : WorkerPhase.busy i ∈ s.workers := List.getElem?_mem hw'
      have := hterm _ hmem'
      simp at this

/-- Witness for C6: one item, concurrency 6; an explicit schedule — claim,
complete, retire — reaches a terminal state whose single entry holds item
0's result. -/
theorem batched_llm_query_alignment_w :
    (⟨2, [some "A"], [WorkerPhase.done]⟩ : BatchState).results.length = 1 ∧
    ∀ i : Nat, i < 1 →
      (⟨2, [some "A"], [WorkerPhase.done]⟩ : BatchState).results[i]?
        = some (some (batchItemResult (fun _ => Except.ok "A") i)) :=
  batched_llm_query_alignment 1 6 (fun _ => Except.ok "A") (by decide)
    ⟨2, [some "A"], [WorkerPhase.done]⟩
    (Relation.ReflTransGen.head
      (show BatchStep 1 (fun _ => Except.ok "A") (batchInit 1 6)
          ⟨1, [none], [WorkerPhase.busy 0]⟩ from
        BatchStep.claim _ 0 rfl)
      (Relation.ReflTransGen.head
        (show BatchStep 1 (fun _ => Except.ok "A")
            ⟨1, [none], [WorkerPhase.busy 0]⟩
            ⟨1, [some "A"], [WorkerPhase.idle]⟩ from
          BatchStep.complete _ 0 0 rfl)
        (Relation.ReflTransGen.head
          (show BatchStep 1 (fun _ => Except.ok "A")
              ⟨1, [some "A"], [WorkerPhase.idle]⟩
              ⟨2, [some "A"], [WorkerPhase.done]⟩ from
            BatchStep.claim _ 0 rfl)
          Relation.ReflTransGen.refl)))
    (by intro w hw; simpa using hw)
